import Mathlib

set_option linter.unusedSectionVars false

/-!
Shallow embedding of the cost-bounded LRU cache (Go package `lru`,
file `lru.go` of hegh/basics).

Modelling conventions:
* The Go `container/list` of `*cell`s together with the `entries` map is
  represented by a single `List (Cell K V)` in recency order
  (front = least recently used, back = most recently used).  The Go map
  `entries` holds exactly the elements of the list (documented invariant
  of the `Cache` struct), so a map lookup `c.entries[key]` is embedded as
  a search of the list by key (`Cache.find?`), and `list.MoveToBack`
  as erase-by-key followed by appending at the back.
* `Cost` is Go `int64`; it is embedded as `Int` with every arithmetic
  operation of the source wrapped by `wrap64`, Go's two's-complement
  64-bit wrap-around.
* Go `panic` is embedded as the `.error` branch of `Except`; the panic
  value carries the cache state at the moment of the panic, mirroring the
  position of the `panic` statements in the source (both panics in `Put`
  happen before any mutation).
* The optional `OnEvict` callback is embedded as an event list
  `List (K × V)`: each operation returns, alongside its result, the list
  of `(key, value)` pairs the source would pass to `OnEvict` (in call
  order).  The optional `OnRetrieve` callback is passed to `Get` as an
  `Option (K → RetResult V E)` parameter.
* A Go `nil` result (`interface{}` with no value) is `none : Option V`.
-/

namespace LRU

/-- `math.MaxInt64`, the maximum representable cache cost. -/
def maxI64 : Int := 2 ^ 63 - 1

/-- Two's-complement wrap-around of Go `int64` arithmetic: the value in
`[-2^63, 2^63)` congruent to `n` modulo `2^64`. -/
def wrap64 (n : Int) : Int := (n + 2 ^ 63) % 2 ^ 64 - 2 ^ 63

/-- `cell` — the type actually stored in each list entry:
`struct { key Key; value interface{}; cost Cost }`. -/
structure Cell (K V : Type) where
  key : K
  value : V
  cost : Int
deriving DecidableEq

/-- `Cache` — the main cache type.  `list` is the recency-ordered list of
cells (front = oldest); the Go `entries` map is the same set of entries
and is not represented separately; `cost` is the running total cost;
`MaxCost` is the configurable bound. -/
structure Cache (K V : Type) where
  list : List (Cell K V)
  cost : Int
  MaxCost : Int
deriving DecidableEq

/-- Result of the Go `RetrieverFunc`: `(value interface{}, cost Cost, err error)`. -/
structure RetResult (V E : Type) where
  value : V
  cost : Int
  err : Option E
deriving DecidableEq

/-- The errors `Get` can return: the dedicated sentinel `ErrMissingEntry`,
or an error value produced by the retriever, propagated verbatim. -/
inductive GetErr (E : Type) where
  | missingEntry
  | retrieval (e : E)
deriving DecidableEq

/-- The two `panic`s of the source: negative entry cost, and cache cost
overflow past `math.MaxInt64`. -/
inductive Fatal where
  | negCost
  | overflow
deriving DecidableEq

variable {K V E : Type} [DecidableEq K]

/-- Lookup `c.entries[key]`: find the (unique) cell with the given key. -/
def Cache.find? (c : Cache K V) (key : K) : Option (Cell K V) :=
  c.list.find? (fun cl => cl.key == key)

/-- `New(maxCost)`: empty list, empty map, zero cost, given bound. -/
def New (maxCost : Int) : Cache K V :=
  { list := [], cost := 0, MaxCost := maxCost }

/-- `Cost()`: the current stored total cost. -/
def Cache.Cost (c : Cache K V) : Int := c.cost

/-- `EvictOldest()`: if the cache is empty return nil; otherwise remove the
front (least recently used) cell, subtract its cost, report the eviction
to `OnEvict`, and return its value. -/
def Cache.EvictOldest (c : Cache K V) : Option V × List (K × V) × Cache K V :=
  match c.list with
  | [] => (none, [], c)
  | cl :: rest =>
    (some cl.value, [(cl.key, cl.value)],
     { c with list := rest, cost := wrap64 (c.cost - cl.cost) })

/-- The eviction loop of `Put`:
`for c.cost > c.MaxCost && len(c.entries) > 1 { c.EvictOldest() }`.
The guard `len(c.entries) > 1` is the two-element list pattern; the body
inlines `EvictOldest` on a nonempty list (remove the front cell, subtract
its cost, record the eviction event) so that the recursion is structural
on the entry list. -/
def evictGo (maxCost : Int) : List (Cell K V) → Int → List (Cell K V) × Int × List (K × V)
  | cl :: b :: rest, cost =>
    if maxCost < cost then
      let r := evictGo maxCost (b :: rest) (wrap64 (cost - cl.cost))
      (r.1, r.2.1, (cl.key, cl.value) :: r.2.2)
    else (cl :: b :: rest, cost, [])
  | l, cost => (l, cost, [])

/-- The eviction loop applied to a cache state. -/
def Cache.evictWhile (c : Cache K V) : Cache K V × List (K × V) :=
  let r := evictGo c.MaxCost c.list c.cost
  ({ c with list := r.1, cost := r.2.1 }, r.2.2)

/-- `Put(key, cost, value)`.  Panics on negative cost (before touching
anything), then: existing key — overflow check on
`c.cost - entryCell.cost + cost`, move to back with updated cost/value,
previous value returned; new key — overflow check on `c.cost + cost`,
push at back; finally the capacity eviction loop runs.  Returns the
previous value (nil for a new key) and the eviction events. -/
def Cache.Put (c : Cache K V) (key : K) (cost : Int) (value : V) :
    Except (Fatal × Cache K V) (Option V × List (K × V) × Cache K V) :=
  if cost < 0 then .error (.negCost, c)
  else
    match c.find? key with
    | some cl =>
      let t := wrap64 (wrap64 (c.cost - cl.cost) + cost)
      if t < 0 then .error (.overflow, c)
      else
        let c1 : Cache K V :=
          { c with
              list := c.list.eraseP (fun x => x.key == key) ++ [⟨key, value, cost⟩],
              cost := t }
        let r := c1.evictWhile
        .ok (some cl.value, r.2, r.1)
    | none =>
      let t := wrap64 (c.cost + cost)
      if t < 0 then .error (.overflow, c)
      else
        let c1 : Cache K V :=
          { c with list := c.list ++ [⟨key, value, cost⟩], cost := t }
        let r := c1.evictWhile
        .ok (none, r.2, r.1)

/-- `Get(key)`.  Hit: move to back, return the stored value with no error
and no mutation of cost.  Miss without retriever: return
(`nil`, `ErrMissingEntry`) and leave the cache untouched.  Miss with
retriever: call it; on error return its value and error verbatim without
touching the cache; on success insert through `Put` and return the value. -/
def Cache.Get (c : Cache K V) (onRetrieve : Option (K → RetResult V E)) (key : K) :
    Except (Fatal × Cache K V)
      ((Option V × Option (GetErr E)) × List (K × V) × Cache K V) :=
  match c.find? key with
  | some cl =>
    .ok ((some cl.value, none), [],
         { c with list := c.list.eraseP (fun x => x.key == key) ++ [cl] })
  | none =>
    match onRetrieve with
    | none => .ok ((none, some .missingEntry), [], c)
    | some f =>
      let r := f key
      match r.err with
      | some e => .ok ((some r.value, some (.retrieval e)), [], c)
      | none =>
        match c.Put key r.cost r.value with
        | .error p => .error p
        | .ok res => .ok ((some r.value, none), res.2.1, res.2.2)

/-- `Evict(key)`: nil and no change if absent; otherwise remove the cell
from the map and the list, report the eviction, and return its value.
NOTE: exactly as in the source, `c.cost` is NOT decremented here (unlike
`EvictOldest`). -/
def Cache.Evict (c : Cache K V) (key : K) : Option V × List (K × V) × Cache K V :=
  match c.find? key with
  | none => (none, [], c)
  | some cl =>
    (some cl.value, [(cl.key, cl.value)],
     { c with list := c.list.eraseP (fun x => x.key == key) })

/-- The loop of `Clear`: `for len(c.entries) > 0 { c.EvictOldest() }`,
unrolled structurally over the entry list; returns the final cost and the
eviction events in order. -/
def clearGo : List (Cell K V) → Int → Int × List (K × V)
  | [], cost => (cost, [])
  | cl :: rest, cost =>
    let r := clearGo rest (wrap64 (cost - cl.cost))
    (r.1, (cl.key, cl.value) :: r.2)

/-- `Clear()`: evict every entry, oldest first. -/
def Cache.Clear (c : Cache K V) : Cache K V × List (K × V) :=
  let r := clearGo c.list c.cost
  ({ c with list := [], cost := r.1 }, r.2)

/-- Sum of the costs of the entries actually present. -/
def sumCosts (l : List (Cell K V)) : Int := (l.map Cell.cost).sum

/-- The keys currently present, in recency order. -/
def keysOf (l : List (Cell K V)) : List K := l.map Cell.key

/-- The mathematical (unwrapped) total cost that `Put key cost` would
produce: for an existing key the delta update, for a new key the sum. -/
def Cache.putNewTotal (c : Cache K V) (key : K) (cost : Int) : Int :=
  match c.find? key with
  | some cl => c.cost - cl.cost + cost
  | none => c.cost + cost

/-- Well-formedness of a reachable cache state: all entry costs are
non-negative, the stored total dominates the sum of entry costs, and the
stored total is a representable `int64`. -/
def Inv (c : Cache K V) : Prop :=
  (∀ cl ∈ c.list, 0 ≤ cl.cost) ∧ sumCosts c.list ≤ c.cost ∧ c.cost ≤ maxI64

/-- Whether an operation result is the overflow panic. -/
def isOverflow {α : Type} (r : Except (Fatal × Cache K V) α) : Bool :=
  match r with
  | .error (.overflow, _) => true
  | _ => false

/-- A cache call: a manual `Put`, or a `Get` (hit, miss, or read-through
insertion, depending on the state and the retriever). -/
inductive Op (K V : Type) where
  | put (key : K) (cost : Int) (value : V)
  | get (key : K)

/-- Run one call, keeping the state the call left behind (a panicking
call leaves the cache exactly as it was, see `Put`). -/
def runOp (onRetrieve : Option (K → RetResult V E)) (c : Cache K V) :
    Op K V → Cache K V
  | .put key cost value =>
    match c.Put key cost value with
    | .ok r => r.2.2
    | .error p => p.2
  | .get key =>
    match c.Get onRetrieve key with
    | .ok r => r.2.2
    | .error p => p.2

/-- Run a sequence of calls. -/
def runOps (onRetrieve : Option (K → RetResult V E)) (c : Cache K V)
    (ops : List (Op K V)) : Cache K V :=
  ops.foldl (runOp onRetrieve) c

/-! ### Arithmetic facts about the 64-bit wrap -/

theorem wrap64_eq_self {n : Int} (h0 : 0 ≤ n) (h1 : n ≤ maxI64) : wrap64 n = n := by
  unfold wrap64
  unfold maxI64 at h1
  omega

theorem wrap64_neg_iff {n : Int} (h0 : 0 ≤ n) (h1 : n ≤ 2 * maxI64) :
    wrap64 n < 0 ↔ maxI64 < n := by
  unfold wrap64
  unfold maxI64 at *
  omega

theorem wrap64_le_maxI64 (n : Int) : wrap64 n ≤ maxI64 := by
  unfold wrap64 maxI64
  omega

/-! ### Facts about lookup and removal -/

theorem find?_mem {c : Cache K V} {key : K} {cl : Cell K V}
    (h : c.find? key = some cl) : cl ∈ c.list :=
  List.mem_of_find?_eq_some h

theorem find?_key {c : Cache K V} {key : K} {cl : Cell K V}
    (h : c.find? key = some cl) : cl.key = key := by
  have h2 := List.find?_some h
  simpa using h2

/-- The entry found by `find?` splits the list as `as ++ cl :: bs` with no
match in `as`, and `eraseP` removes exactly that entry. -/
theorem eraseP_of_find? {l : List (Cell K V)} {p : Cell K V → Bool} {cl : Cell K V}
    (h : l.find? p = some cl) :
    ∃ as bs, l = as ++ cl :: bs ∧ l.eraseP p = as ++ bs := by
  rw [List.find?_eq_some] at h
  obtain ⟨hp, as, bs, rfl, hall⟩ := h
  refine ⟨as, bs, rfl, ?_⟩
  rw [List.eraseP_append_right, List.eraseP_cons_of_pos hp]
  intro b hb
  simpa using hall b hb

theorem sumCosts_append (l1 l2 : List (Cell K V)) :
    sumCosts (l1 ++ l2) = sumCosts l1 + sumCosts l2 := by
  simp [sumCosts]

theorem sumCosts_le_of_mem {l : List (Cell K V)} {cl : Cell K V}
    (hpos : ∀ x ∈ l, 0 ≤ x.cost) (hm : cl ∈ l) : cl.cost ≤ sumCosts l := by
  apply List.single_le_sum (l := l.map Cell.cost)
  · intro x hx
    obtain ⟨y, hy, rfl⟩ := List.mem_map.mp hx
    exact hpos y hy
  · exact List.mem_map.mpr ⟨cl, hm, rfl⟩

theorem sumCosts_nonneg {l : List (Cell K V)} (hpos : ∀ x ∈ l, 0 ≤ x.cost) :
    0 ≤ sumCosts l := by
  apply List.sum_nonneg
  intro x hx
  obtain ⟨y, hy, rfl⟩ := List.mem_map.mp hx
  exact hpos y hy

/-! ### Facts about the eviction loop -/

/-- The eviction loop only drops entries from the front (least recently
used) end of the list, and the eviction events are exactly the dropped
entries, in order. -/
theorem evictGo_drop {A B : Type} (m : Int) (l : List (Cell A B)) (cost : Int) :
    ∃ n, (evictGo m l cost).1 = l.drop n ∧
      (evictGo m l cost).2.2 = (l.take n).map (fun cl => (cl.key, cl.value)) := by
  induction l generalizing cost with
  | nil => exact ⟨0, by simp [evictGo]⟩
  | cons cl rest ih =>
    cases rest with
    | nil => exact ⟨0, by simp [evictGo]⟩
    | cons b rest2 =>
      by_cases h : m < cost
      · obtain ⟨n, h1, h2⟩ := ih (wrap64 (cost - cl.cost))
        exact ⟨n + 1, by simp [evictGo, h, h1, h2]⟩
      · exact ⟨0, by simp [evictGo, h]⟩

/-- The eviction loop never removes the most recently used entry. -/
theorem evictGo_getLast {A B : Type} (m : Int) (l : List (Cell A B)) (cost : Int) :
    (evictGo m l cost).1.getLast? = l.getLast? := by
  induction l generalizing cost with
  | nil => simp [evictGo]
  | cons cl rest ih =>
    cases rest with
    | nil => simp [evictGo]
    | cons b rest2 =>
      by_cases h : m < cost
      · rw [List.getLast?_cons_cons]
        simpa [evictGo, h] using ih (wrap64 (cost - cl.cost))
      · simp [evictGo, h]

theorem evictGo_ne_nil {A B : Type} {m : Int} {l : List (Cell A B)} {cost : Int} (h : l ≠ []) :
    (evictGo m l cost).1 ≠ [] := by
  intro hc
  have hg := evictGo_getLast m l cost
  rw [hc] at hg
  exact h (List.getLast?_eq_none_iff.mp hg.symm)

/-- Post-condition of the eviction loop: its guard has failed, so either
the cost is within bound or at most one entry remains. -/
theorem evictGo_post {A B : Type} (m : Int) (l : List (Cell A B)) (cost : Int) :
    (evictGo m l cost).2.1 ≤ m ∨ (evictGo m l cost).1.length ≤ 1 := by
  induction l generalizing cost with
  | nil => right; simp [evictGo]
  | cons cl rest ih =>
    cases rest with
    | nil => right; simp [evictGo]
    | cons b rest2 =>
      by_cases h : m < cost
      · simpa [evictGo, h] using ih (wrap64 (cost - cl.cost))
      · left
        simp [evictGo, h]
        omega

/-! ### Shape of completed and panicking calls -/

/-- A completed `Put` is the eviction loop run, with the current bound, on
some nonempty list whose most recently used entry is the freshly written
cell. -/
theorem put_ok_shape {c : Cache K V} {key : K} {cost : Int} {value : V}
    {prev : Option V} {evs : List (K × V)} {c1 : Cache K V}
    (h : c.Put key cost value = .ok (prev, evs, c1)) :
    ∃ (L : List (Cell K V)) (t : Int), L ≠ [] ∧ L.getLast? = some ⟨key, value, cost⟩ ∧
      c1 = ⟨(evictGo c.MaxCost L t).1, (evictGo c.MaxCost L t).2.1, c.MaxCost⟩ ∧
      evs = (evictGo c.MaxCost L t).2.2 := by
  unfold Cache.Put at h
  split at h
  · simp at h
  · split at h
    next cl hfind =>
      dsimp only at h
      split at h
      · simp at h
      · simp only [Cache.evictWhile, Except.ok.injEq, Prod.mk.injEq] at h
        obtain ⟨h1, h2, h3⟩ := h
        refine ⟨c.list.eraseP (fun x => x.key == key) ++ [⟨key, value, cost⟩],
          wrap64 (wrap64 (c.cost - cl.cost) + cost), by simp, List.getLast?_concat _,
          ?_, h2.symm⟩
        subst h3
        rfl
    next hfind =>
      dsimp only at h
      split at h
      · simp at h
      · simp only [Cache.evictWhile, Except.ok.injEq, Prod.mk.injEq] at h
        obtain ⟨h1, h2, h3⟩ := h
        refine ⟨c.list ++ [⟨key, value, cost⟩], wrap64 (c.cost + cost),
          by simp, List.getLast?_concat _, ?_, h2.symm⟩
        subst h3
        rfl

/-- A completed `Put` leaves the freshly written cell in the cache. -/
theorem put_ok_mem {c : Cache K V} {key : K} {cost : Int} {value : V}
    {prev : Option V} {evs : List (K × V)} {c1 : Cache K V}
    (h : c.Put key cost value = .ok (prev, evs, c1)) :
    Cell.mk key value cost ∈ c1.list := by
  obtain ⟨L, t, hne, hlast, hc1, hevs⟩ := put_ok_shape h
  subst hc1
  apply List.mem_of_mem_getLast?
  rw [evictGo_getLast]
  exact hlast

/-- A completed `Put` ends with the loop guard false: within bound, or a
single (jumbo) entry left. -/
theorem put_ok_cap {c : Cache K V} {key : K} {cost : Int} {value : V}
    {prev : Option V} {evs : List (K × V)} {c1 : Cache K V}
    (h : c.Put key cost value = .ok (prev, evs, c1)) :
    c1.cost ≤ c1.MaxCost ∨ c1.list.length = 1 := by
  obtain ⟨L, t, hne, hlast, hc1, hevs⟩ := put_ok_shape h
  subst hc1
  rcases evictGo_post c.MaxCost L t with h1 | h1
  · exact Or.inl h1
  · right
    have h2 := @evictGo_ne_nil K V c.MaxCost L t hne
    cases hL : (evictGo c.MaxCost L t).1 with
    | nil => exact absurd hL h2
    | cons a as =>
      rw [hL] at h1
      simp only [List.length_cons] at h1 ⊢
      omega

/-- A panicking `Put` carries the cache unchanged: both checks precede
every mutation. -/
theorem put_error_state {c : Cache K V} {key : K} {cost : Int} {value : V}
    {p : Fatal × Cache K V} (h : c.Put key cost value = .error p) : p.2 = c := by
  unfold Cache.Put at h
  split at h
  · simp only [Except.error.injEq] at h
    rw [← h]
  · split at h
    next cl hfind =>
      dsimp only at h
      split at h
      · simp only [Except.error.injEq] at h
        rw [← h]
      · simp at h
    next hfind =>
      dsimp only at h
      split at h
      · simp only [Except.error.injEq] at h
        rw [← h]
      · simp at h

/-- A panicking `Get` carries the cache unchanged. -/
theorem get_error_state {c : Cache K V} {f? : Option (K → RetResult V E)} {key : K}
    {p : Fatal × Cache K V} (h : c.Get f? key = .error p) : p.2 = c := by
  unfold Cache.Get at h
  split at h
  · simp at h
  · split at h
    · simp at h
    · dsimp only at h
      split at h
      · simp at h
      · split at h
        next hput =>
          simp only [Except.error.injEq] at h
          subst h
          exact put_error_state hput
        · simp at h

/-- A completed `Get` either leaves the cost, the bound and the entry
count unchanged (hit, miss without retriever, retrieval error), or is a
completed insertion through `Put`. -/
theorem get_ok_state {c : Cache K V} {f? : Option (K → RetResult V E)} {key : K}
    {res : Option V × Option (GetErr E)} {evs : List (K × V)} {c1 : Cache K V}
    (h : c.Get f? key = .ok (res, evs, c1)) :
    (c1.cost = c.cost ∧ c1.MaxCost = c.MaxCost ∧ c1.list.length = c.list.length) ∨
    (∃ (k2 : K) (co : Int) (va : V) (prev : Option V),
       c.Put k2 co va = .ok (prev, evs, c1)) := by
  unfold Cache.Get at h
  split at h
  next cl hfind =>
    left
    simp only [Except.ok.injEq, Prod.mk.injEq] at h
    obtain ⟨-, -, hc1⟩ := h
    subst hc1
    refine ⟨rfl, rfl, ?_⟩
    have hfind2 : c.list.find? (fun x => x.key == key) = some cl := hfind
    have hmem : cl ∈ c.list := List.mem_of_find?_eq_some hfind2
    have hp : (fun x : Cell K V => x.key == key) cl = true :=
      List.find?_some (p := fun x : Cell K V => x.key == key) hfind2
    have hlen := List.length_eraseP_of_mem (p := fun x : Cell K V => x.key == key) hmem hp
    have hpos : 0 < c.list.length := List.length_pos.mpr (List.ne_nil_of_mem hmem)
    simp only [List.length_append, hlen, List.length_cons, List.length_nil]
    omega
  · split at h
    · left
      simp only [Except.ok.injEq, Prod.mk.injEq] at h
      obtain ⟨-, -, hc1⟩ := h
      subst hc1
      exact ⟨rfl, rfl, rfl⟩
    · dsimp only at h
      split at h
      · left
        simp only [Except.ok.injEq, Prod.mk.injEq] at h
        obtain ⟨-, -, hc1⟩ := h
        subst hc1
        exact ⟨rfl, rfl, rfl⟩
      · split at h
        · simp at h
        next r2 hput =>
          right
          obtain ⟨p1, p2, p3⟩ := r2
          simp only [Except.ok.injEq, Prod.mk.injEq] at h
          obtain ⟨-, hevs, hc1⟩ := h
          subst hevs
          subst hc1
          exact ⟨_, _, _, _, hput⟩

/-- One cache call preserves the three-way disjunction
empty / within bound / single entry. -/
theorem runOp_cap (onR : Option (K → RetResult V E)) (c : Cache K V) (op : Op K V)
    (h : c.list = [] ∨ c.cost ≤ c.MaxCost ∨ c.list.length = 1) :
    (runOp onR c op).list = [] ∨
      (runOp onR c op).cost ≤ (runOp onR c op).MaxCost ∨
      (runOp onR c op).list.length = 1 := by
  cases op with
  | put key cost value =>
    simp only [runOp]
    cases hp : c.Put key cost value with
    | ok r =>
      obtain ⟨p1, p2, p3⟩ := r
      exact Or.inr (put_ok_cap hp)
    | error p =>
      show p.2.list = [] ∨ p.2.cost ≤ p.2.MaxCost ∨ p.2.list.length = 1
      rw [put_error_state hp]
      exact h
  | get key =>
    simp only [runOp]
    cases hg : c.Get onR key with
    | ok r =>
      obtain ⟨res, evs, c1⟩ := r
      rcases get_ok_state hg with ⟨h1, h2, h3⟩ | ⟨k2, co, va, prev, hput⟩
      · show c1.list = [] ∨ c1.cost ≤ c1.MaxCost ∨ c1.list.length = 1
        rcases h with h | h | h
        · exact Or.inl (List.length_eq_zero.mp (by rw [h3, h]; rfl))
        · exact Or.inr (Or.inl (by rw [h1, h2]; exact h))
        · exact Or.inr (Or.inr (by rw [h3]; exact h))
      · exact Or.inr (put_ok_cap hput)
    | error p =>
      show p.2.list = [] ∨ p.2.cost ≤ p.2.MaxCost ∨ p.2.list.length = 1
      rw [get_error_state hg]
      exact h

/-- The disjunction holds after any sequence of calls from any state
satisfying it. -/
theorem runOps_cap (onR : Option (K → RetResult V E)) (ops : List (Op K V))
    (c : Cache K V)
    (h : c.list = [] ∨ c.cost ≤ c.MaxCost ∨ c.list.length = 1) :
    (runOps onR c ops).list = [] ∨
      (runOps onR c ops).cost ≤ (runOps onR c ops).MaxCost ∨
      (runOps onR c ops).list.length = 1 := by
  induction ops generalizing c with
  | nil => exact h
  | cons op ops ih => exact ih (runOp onR c op) (runOp_cap onR c op h)

/-! ### Claim theorems -/

/-- Claim C1 (code-bug demonstration).  On the one-entry cache reached by
`Put 1 5 50` on `New 100`, `Evict 1` removes the entry, fires the eviction
callback with the entry's key and value, and returns the value — but the
stored total cost stays at 5 instead of being decremented to 0: the body
of `Evict` never subtracts the evicted entry's cost (unlike `EvictOldest`),
contradicting the claim and the documentation of `Cost`. -/
theorem evict_keeps_cost_bug :
    (New 100 : Cache Nat Nat).Put 1 5 50 = .ok (none, [], ⟨[⟨1, 50, 5⟩], 5, 100⟩) ∧
    (⟨[⟨1, 50, 5⟩], 5, 100⟩ : Cache Nat Nat).Evict 1 =
      (some 50, [(1, 50)], ⟨[], 5, 100⟩) ∧
    (⟨[], 5, 100⟩ : Cache Nat Nat).Cost = 5 := by
  exact ⟨rfl, rfl, rfl⟩

/-- Claim C2 (code-bug demonstration).  After `Put 7 3 30` on `New 100`
followed by `Evict 7` — a completed `Evict` call — the stored total cost
is 3 while the caches's entries sum to 0, so the invariant
`totalCost = Σ entries.cost` does not hold after every completed
operation. -/
theorem cost_sum_invariant_broken_by_evict :
    (New 100 : Cache Nat Nat).Put 7 3 30 = .ok (none, [], ⟨[⟨7, 30, 3⟩], 3, 100⟩) ∧
    (⟨[⟨7, 30, 3⟩], 3, 100⟩ : Cache Nat Nat).Evict 7 =
      (some 30, [(7, 30)], ⟨[], 3, 100⟩) ∧
    (⟨[], 3, 100⟩ : Cache Nat Nat).cost = 3 ∧
    sumCosts (⟨[], 3, 100⟩ : Cache Nat Nat).list = 0 := by
  exact ⟨rfl, rfl, rfl, rfl⟩

/-- Claim C6.  Without a retrieval callback, `Get` on an absent key
returns exactly the dedicated `missingEntry` sentinel (which is distinct
from every retrieval error by construction of `GetErr`) and returns the
cache completely unchanged; `Get` on a present key returns its value with
no error at all. -/
theorem get_without_retriever (c : Cache K V) (key : K) :
    (c.find? key = none →
       c.Get (E := E) none key = .ok ((none, some .missingEntry), [], c)) ∧
    (∀ cl, c.find? key = some cl →
       ∃ c1, c.Get (E := E) none key = .ok ((some cl.value, none), [], c1)) := by
  constructor
  · intro h
    simp [Cache.Get, h]
  · intro cl h
    exact ⟨{ c with list := c.list.eraseP (fun x => x.key == key) ++ [cl] },
      by simp [Cache.Get, h]⟩

/-- Witness for C6: on `New 5`, `Get 3` without a retriever reports the
missing-entry condition and hands back the unchanged cache. -/
theorem get_without_retriever_witness :
    (New 5 : Cache Nat Nat).Get (E := Nat) none 3 =
      .ok ((none, some .missingEntry), [], (New 5 : Cache Nat Nat)) :=
  (get_without_retriever (New 5) 3).1 rfl

/-- Claim C7.  With a retrieval callback that fails on an absent key,
`Get` returns the callback's error verbatim (and its value), inserts
nothing, and returns the cache unchanged — same entries, same order, same
total cost. -/
theorem get_retrieval_error_propagates (c : Cache K V) (f : K → RetResult V E)
    (key : K) (e : E) (habs : c.find? key = none) (herr : (f key).err = some e) :
    c.Get (some f) key = .ok ((some (f key).value, some (.retrieval e)), [], c) := by
  simp [Cache.Get, habs, herr]

/-- Witness for C7: a retriever that always fails with error 9 propagates
exactly error 9 from `Get 3` on `New 5`, leaving the cache as it was. -/
theorem get_retrieval_error_propagates_witness :
    (New 5 : Cache Nat Nat).Get (some fun _ => ⟨0, 1, some 9⟩) 3 =
      .ok ((some 0, some (.retrieval 9)), [], (New 5 : Cache Nat Nat)) :=
  get_retrieval_error_propagates (New 5) (fun _ => ⟨0, 1, some 9⟩) 3 9 rfl rfl

/-- Claim C8.  A negative cost — passed directly to `Put`, or produced by
the retrieval callback inside `Get` — panics, and the panic carries the
cache exactly as it was before the call: the cost check precedes every
mutation, so entries, recency order and total cost are untouched. -/
theorem negative_cost_panics_before_mutation (c : Cache K V) (key : K) :
    (∀ (cost : Int) (value : V), cost < 0 →
       c.Put key cost value = .error (.negCost, c)) ∧
    (∀ f : K → RetResult V E, c.find? key = none → (f key).err = none →
       (f key).cost < 0 → c.Get (some f) key = .error (.negCost, c)) := by
  constructor
  · intro cost value h
    simp [Cache.Put, h]
  · intro f habs herr hneg
    simp [Cache.Get, habs, herr, Cache.Put, hneg]

/-- Witness for C8: `Put 1 (-1) 0` on `New 5` panics with the
negative-cost error and the cache it carries is the untouched `New 5`. -/
theorem negative_cost_panics_before_mutation_witness :
    (New 5 : Cache Nat Nat).Put 1 (-1) 0 = .error (.negCost, (New 5 : Cache Nat Nat)) :=
  (negative_cost_panics_before_mutation (E := Nat) (New 5) 1).1 (-1) 0 (by decide)

/-- Claim C10.  A completed `Put` always leaves its own key in the cache:
the freshly written cell is the most recently used entry and the eviction
loop never reaches it, even when its cost exceeds `MaxCost`; the same
holds for a key inserted by `Get` through the retrieval callback (a `Get`
that completes without error leaves the key present). -/
theorem put_retains_inserted_key (c : Cache K V) (key : K) (cost : Int) (value : V) :
    (∀ (prev : Option V) (evs : List (K × V)) (c1 : Cache K V),
       c.Put key cost value = .ok (prev, evs, c1) →
       Cell.mk key value cost ∈ c1.list ∧ key ∈ keysOf c1.list) ∧
    (∀ (f : K → RetResult V E) (res : Option V × Option (GetErr E))
       (evs : List (K × V)) (c1 : Cache K V),
       c.Get (some f) key = .ok (res, evs, c1) → res.2 = none →
       key ∈ keysOf c1.list) := by
  constructor
  · intro prev evs c1 h
    have hmem := put_ok_mem h
    exact ⟨hmem, List.mem_map.mpr ⟨_, hmem, rfl⟩⟩
  · intro f res evs c1 h hres
    unfold Cache.Get at h
    split at h
    next cl hfind =>
      simp only [Except.ok.injEq, Prod.mk.injEq] at h
      obtain ⟨-, -, hc1⟩ := h
      subst hc1
      have hkey : cl.key = key := find?_key hfind
      exact List.mem_map.mpr ⟨cl, by simp, hkey⟩
    next hfind =>
      dsimp only at h
      split at h
      next e herr =>
        simp only [Except.ok.injEq, Prod.mk.injEq] at h
        obtain ⟨hres2, -, -⟩ := h
        rw [← hres2] at hres
        simp at hres
      · split at h
        · simp at h
        next r2 hput =>
          obtain ⟨p1, p2, p3⟩ := r2
          simp only [Except.ok.injEq, Prod.mk.injEq] at h
          obtain ⟨-, -, hc1⟩ := h
          subst hc1
          exact List.mem_map.mpr ⟨_, put_ok_mem hput, rfl⟩

/-- Witness for C10: `Put 1 7 10` on the empty cache `New 2` completes
with cost 7 above the bound 2, and key 1 is present afterwards. -/
theorem put_retains_inserted_key_witness :
    Cell.mk 1 10 7 ∈ (⟨[⟨1, 10, 7⟩], 7, 2⟩ : Cache Nat Nat).list ∧
      1 ∈ keysOf (⟨[⟨1, 10, 7⟩], 7, 2⟩ : Cache Nat Nat).list :=
  (put_retains_inserted_key (E := Nat) (New 2 : Cache Nat Nat) 1 7 10).1
    none [] ⟨[⟨1, 10, 7⟩], 7, 2⟩ rfl

/-- Claim C3.  Running any sequence of `Put` and `Get` calls from a
freshly constructed cache (with any retriever), any call that left an
entry behind — in particular every completed insertion — leaves the cache
within its cost bound or with exactly one entry. -/
theorem capacity_invariant (maxCost : Int) (onRetrieve : Option (K → RetResult V E))
    (ops : List (Op K V))
    (h : (runOps onRetrieve (New maxCost) ops).list ≠ []) :
    (runOps onRetrieve (New maxCost) ops).cost ≤
        (runOps onRetrieve (New maxCost) ops).MaxCost ∨
      (runOps onRetrieve (New maxCost) ops).list.length = 1 := by
  rcases runOps_cap onRetrieve ops (New maxCost) (Or.inl rfl) with h0 | h0 | h0
  · exact absurd h0 h
  · exact Or.inl h0
  · exact Or.inr h0

/-- Witness for C3: the single jumbo insertion `Put 1 5 10` into `New 2`
completes over budget but with exactly one entry. -/
theorem capacity_invariant_witness :
    (runOps (E := Nat) none (New 2 : Cache Nat Nat) [.put 1 5 10]).cost ≤
        (runOps (E := Nat) none (New 2 : Cache Nat Nat) [.put 1 5 10]).MaxCost ∨
      (runOps (E := Nat) none (New 2 : Cache Nat Nat) [.put 1 5 10]).list.length = 1 :=
  capacity_invariant 2 none [.put 1 5 10] (by decide)

/-- Claim C5.  With capacity 2 and single-cost entries A, B inserted in
that order, a `Get` hit on A promotes it, and the insertion of C then
evicts B and only B, keeping A; in general the capacity eviction loop
only ever removes a prefix of the recency list, i.e. evicts from the
least-recently-used end. -/
theorem lru_eviction_order :
    ((New 2 : Cache Nat Nat).Put 1 1 10 = .ok (none, [], ⟨[⟨1, 10, 1⟩], 1, 2⟩)) ∧
    ((⟨[⟨1, 10, 1⟩], 1, 2⟩ : Cache Nat Nat).Put 2 1 20 =
      .ok (none, [], ⟨[⟨1, 10, 1⟩, ⟨2, 20, 1⟩], 2, 2⟩)) ∧
    ((⟨[⟨1, 10, 1⟩, ⟨2, 20, 1⟩], 2, 2⟩ : Cache Nat Nat).Get (E := Nat) none 1 =
      .ok ((some 10, none), [], ⟨[⟨2, 20, 1⟩, ⟨1, 10, 1⟩], 2, 2⟩)) ∧
    ((⟨[⟨2, 20, 1⟩, ⟨1, 10, 1⟩], 2, 2⟩ : Cache Nat Nat).Put 3 1 30 =
      .ok (none, [(2, 20)], ⟨[⟨1, 10, 1⟩, ⟨3, 30, 1⟩], 2, 2⟩)) ∧
    (∀ (K2 V2 : Type) (m : Int) (l : List (Cell K2 V2)) (cost : Int),
      ∃ n, (evictGo m l cost).1 = l.drop n ∧
        (evictGo m l cost).2.2 = (l.take n).map fun cl => (cl.key, cl.value)) := by
  refine ⟨rfl, rfl, rfl, rfl, ?_⟩
  intro K2 V2 m l cost
  exact evictGo_drop m l cost

/-- Claim C4.  A single entry whose cost exceeds `MaxCost` is accepted
into an empty cache and retained as the sole resident; the next completed
insertion of a different key evicts the jumbo entry (reporting it to the
eviction callback) and leaves only the new entry. -/
theorem jumbo_entry (maxCost cost1 cost2 : Int) (k1 k2 : K) (v1 v2 : V)
    (hm : 0 ≤ maxCost) (h1 : maxCost < cost1) (h1b : cost1 ≤ maxI64)
    (h2 : 0 ≤ cost2) (hsum : cost1 + cost2 ≤ maxI64) (hk : k2 ≠ k1) :
    (New maxCost : Cache K V).Put k1 cost1 v1 =
      .ok (none, [], ⟨[⟨k1, v1, cost1⟩], cost1, maxCost⟩) ∧
    (⟨[⟨k1, v1, cost1⟩], cost1, maxCost⟩ : Cache K V).Put k2 cost2 v2 =
      .ok (none, [(k1, v1)], ⟨[⟨k2, v2, cost2⟩], cost2, maxCost⟩) := by
  have hc1 : 0 ≤ cost1 := le_trans hm (le_of_lt h1)
  have hc2m : cost2 ≤ maxI64 := by
    have h0m : (0:Int) ≤ maxI64 := by unfold maxI64; norm_num
    omega
  have hw12 : wrap64 (cost1 + cost2) = cost1 + cost2 := wrap64_eq_self (by omega) hsum
  have hw2 : wrap64 (cost1 + cost2 - cost1) = cost2 := by
    have he : cost1 + cost2 - cost1 = cost2 := by ring
    rw [he]; exact wrap64_eq_self h2 hc2m
  have hguard : maxCost < cost1 + cost2 := by omega
  have hbeq : (k1 == k2) = false := beq_eq_false_iff_ne.mpr (Ne.symm hk)
  constructor
  · simp [Cache.Put, New, Cache.find?, Cache.evictWhile, evictGo, hc1.not_lt,
      wrap64_eq_self hc1 h1b]
  · simp [Cache.Put, Cache.find?, List.find?, hbeq, Cache.evictWhile, evictGo,
      h2.not_lt, hw12, hguard, hw2, wrap64_eq_self h2 hc2m,
      not_lt.mpr (by omega : (0:Int) ≤ cost1 + cost2)]

/-- Witness for C4: cost 5 exceeds the bound 2 of `New 2` yet `Put`
retains it alone; the following `Put` of key 2 with cost 1 evicts it. -/
theorem jumbo_entry_witness :
    (New 2 : Cache Nat Nat).Put 1 5 10 = .ok (none, [], ⟨[⟨1, 10, 5⟩], 5, 2⟩) ∧
    (⟨[⟨1, 10, 5⟩], 5, 2⟩ : Cache Nat Nat).Put 2 1 20 =
      .ok (none, [(1, 10)], ⟨[⟨2, 20, 1⟩], 1, 2⟩) :=
  jumbo_entry 2 5 1 1 2 10 20 (by decide) (by decide) (by decide) (by decide)
    (by decide) (by decide)

/-- Claim C9.  On a well-formed cache state, for a `Put` with a
representable non-negative cost, the overflow panic fires exactly when
the mathematical new total (delta update for an existing key, sum for a
new key) exceeds `math.MaxInt64` — the wrapped comparison in the source
agrees with the unwrapped one, so the stored total never silently wraps
and no spurious overflow panic occurs. -/
theorem overflow_panic_exact (c : Cache K V) (key : K) (cost : Int) (value : V)
    (hInv : Inv c) (h0 : 0 ≤ cost) (h1 : cost ≤ maxI64) :
    isOverflow (c.Put key cost value) = true ↔ maxI64 < c.putNewTotal key cost := by
  obtain ⟨hpos, hsum, hmax⟩ := hInv
  have hc0 : 0 ≤ c.cost := le_trans (sumCosts_nonneg hpos) hsum
  rcases hfind : c.find? key with _ | cl
  · have hx0 : 0 ≤ c.cost + cost := by omega
    have hx1 : c.cost + cost ≤ 2 * maxI64 := by omega
    have hiff := wrap64_neg_iff hx0 hx1
    unfold Cache.putNewTotal
    rw [hfind]
    by_cases ht : wrap64 (c.cost + cost) < 0
    · have hput : c.Put key cost value = .error (.overflow, c) := by
        simp [Cache.Put, hfind, ht, h0.not_lt]
      rw [hput]
      simpa [isOverflow] using hiff.mp ht
    · have hput : isOverflow (c.Put key cost value) = false := by
        simp [Cache.Put, hfind, ht, h0.not_lt, isOverflow]
      rw [hput]
      simp only [Bool.false_eq_true, false_iff]
      intro hc
      exact ht (hiff.mpr hc)
  · have hmem : cl ∈ c.list := find?_mem hfind
    have hclpos : 0 ≤ cl.cost := hpos cl hmem
    have hclle : cl.cost ≤ sumCosts c.list := sumCosts_le_of_mem hpos hmem
    have hinner : wrap64 (c.cost - cl.cost) = c.cost - cl.cost :=
      wrap64_eq_self (by omega) (by omega)
    have hx0 : 0 ≤ c.cost - cl.cost + cost := by omega
    have hx1 : c.cost - cl.cost + cost ≤ 2 * maxI64 := by omega
    have hiff := wrap64_neg_iff hx0 hx1
    unfold Cache.putNewTotal
    rw [hfind]
    by_cases ht : wrap64 (c.cost - cl.cost + cost) < 0
    · have hput : c.Put key cost value = .error (.overflow, c) := by
        simp [Cache.Put, hfind, hinner, ht, h0.not_lt]
      rw [hput]
      simpa [isOverflow] using hiff.mp ht
    · have hput : isOverflow (c.Put key cost value) = false := by
        simp [Cache.Put, hfind, hinner, ht, h0.not_lt, isOverflow]
      rw [hput]
      simp only [Bool.false_eq_true, false_iff]
      intro hc
      exact ht (hiff.mpr hc)

/-- Witness for C9: `Put 1 5 42` on the well-formed `New 100` produces
total 5, far below `math.MaxInt64`, and indeed does not overflow-panic. -/
theorem overflow_panic_exact_witness :
    isOverflow ((New 100 : Cache Nat Nat).Put 1 5 42) = false := by
  have h := overflow_panic_exact (New 100 : Cache Nat Nat) 1 5 42
    ⟨by simp [New], by decide, by decide⟩ (by decide) (by decide)
  have hn : ¬ maxI64 < (New 100 : Cache Nat Nat).putNewTotal 1 5 := by decide
  cases hb : isOverflow ((New 100 : Cache Nat Nat).Put 1 5 42) with
  | false => rfl
  | true => exact absurd (h.mp hb) hn

end LRU
